import Mathlib

/-!
# wcsenc: a growable buffer for encoding wide-character strings

Shallow embedding of `pyt/parser/wcsenc.c` (with `ghostwriter/parser/wcsenc.h`).

Conventions of the embedding.

* `size_t` is a natural number below `SIZE_MOD = 2 ^ 64`; every `size_t`
  computation of the source is reduced modulo `SIZE_MOD`.
* `sizeof(wchar_t)` is `4`.
* A pointer is a natural number, `0` being `NULL`.  The heap is an association
  list from the address of an allocated block to the bytes it holds; the size
  of the block is the length of that list.
* An access outside an allocated block, or through a pointer that is not the
  address of an allocated block, is undefined behaviour: the operation yields
  `none`.
* The answers of the allocator (`malloc`, `realloc`) are not determined by the
  program; every function that allocates takes the answer as an argument.
* `mbstate_t` is a natural number, `0` being the all-zero object.
* `perror` and `errno` only produce diagnostics and are left out.
-/

namespace Wcsenc

/-! ## Machine constants -/

/-- Number of values of `size_t`. -/
def SIZE_MOD : Nat := 2 ^ 64

/-- Value of `sizeof(wchar_t)`. -/
def sizeof_wchar_t : Nat := 4

/-- Source: `const size_t WCS_WRITE_ERROR = (size_t)-1;` -/
def WCS_WRITE_ERROR : Nat := SIZE_MOD - 1

/-! ## Heap and allocator -/

/-- Allocated blocks: address and contents. -/
abbrev Heap := List (Nat × List Nat)

/-- Contents of the block allocated at address `p`, if there is one. -/
def block_at (h : Heap) (p : Nat) : Option (List Nat) :=
  match h with
  | [] => none
  | (q, b) :: t => if q = p then some b else block_at t p

/-- Heap without the block at address `p`. -/
def heap_free (h : Heap) (p : Nat) : Heap :=
  h.filter (fun e => decide (e.1 ≠ p))

/-- Heap in which the block at address `p` holds `b`. -/
def heap_store (h : Heap) (p : Nat) (b : List Nat) : Heap :=
  (p, b) :: heap_free h p

/-- Answer of the allocator to one request: the address it returns (`0` when
the request fails) and the indeterminate bytes found in new memory. -/
structure Alloc where
  addr : Nat
  fill : List Nat
deriving DecidableEq, Repr

/-- The `size` bytes of a new block, read from the allocator's `fill`. -/
def fresh_bytes (size : Nat) (fill : List Nat) : List Nat :=
  (List.range size).map (fun i => fill.getD i 0)

/-- Library `malloc(size)`: the new heap and the returned pointer. -/
def malloc (h : Heap) (size : Nat) (a : Alloc) : Heap × Nat :=
  if a.addr = 0 then (h, 0)
  else (heap_store h a.addr (fresh_bytes size a.fill), a.addr)

/-- Library `realloc(p, size)`.  With `p = NULL` it is `malloc(size)`.  When it
fails the old block stays allocated and `NULL` is returned.  When it succeeds
the old block is released and the new block starts with the old contents. -/
def realloc (h : Heap) (p size : Nat) (a : Alloc) : Option (Heap × Nat) :=
  if p = 0 then some (malloc h size a)
  else
    match block_at h p with
    | none => none
    | some old =>
      if a.addr = 0 then some (h, 0)
      else
        some (heap_store (heap_free h p) a.addr
                (old.take size ++ fresh_bytes (size - old.length) a.fill), a.addr)

/-- Library `free(p)`: nothing for `NULL`, undefined when `p` is not the address
of an allocated block. -/
def free (h : Heap) (p : Nat) : Option Heap :=
  if p = 0 then some h
  else
    match block_at h p with
    | none => none
    | some _ => some (heap_free h p)

/-- Library `memset(p, 0, n)`. -/
def memset_zero (h : Heap) (p n : Nat) : Option Heap :=
  if p = 0 then none
  else
    match block_at h p with
    | none => none
    | some b =>
      if n ≤ b.length then some (heap_store h p (List.replicate n 0 ++ b.drop n))
      else none

/-! ## The conversion routine of the C library -/

/-- Library `wcrtomb` for the target encoding: the bytes of one wide character
in a given conversion state and the state that follows, or `none` when the
character has no representation. -/
abbrev Encoder := Nat → Nat → Option (List Nat × Nat)

/-- Outcome of a run of `wcsrtombs` with a destination: the returned value, the
bytes stored from the start of the destination, the conversion state. -/
structure Conv where
  ret : Nat
  out : List Nat
  st : Nat
deriving DecidableEq, Repr

/-- Loop of `wcsrtombs(dst, &src, len, ps)` for `dst != NULL`, as ISO C describes
it: the characters are converted one after the other as if by `wcrtomb`.  `src` is the
readable wide-character memory at the source pointer, `rem` the bytes still
allowed, `out` the bytes stored so far.  It stops when the limit is used up,
at a NUL wide character (which is stored and resets the state), at an
unrepresentable character (error return), or when the next character does not
fit.  Reading past the end of `src` is undefined. -/
def wcsrtombs_loop (enc : Encoder) : List Nat → Nat → Nat → List Nat → Option Conv
  | [], rem, st, out => if rem = 0 then some ⟨out.length, out, st⟩ else none
  | c :: rest, rem, st, out =>
    if rem = 0 then some ⟨out.length, out, st⟩
    else if c = 0 then some ⟨out.length, out ++ [0], 0⟩
    else
      match enc c st with
      | none => some ⟨WCS_WRITE_ERROR, out, st⟩
      | some (bs, st1) =>
        if rem < bs.length then some ⟨out.length, out, st⟩
        else wcsrtombs_loop enc rest (rem - bs.length) st1 (out ++ bs)

/-- Loop of `wcsrtombs(NULL, &src, len, ps)`: nothing is stored and the limit is
ignored; the bytes the whole string up to its NUL would need are counted. -/
def wcsrtombs_count (enc : Encoder) : List Nat → Nat → Nat → Option Nat
  | [], _, _ => none
  | c :: rest, st, acc =>
    if c = 0 then some (acc % SIZE_MOD)
    else
      match enc c st with
      | none => some WCS_WRITE_ERROR
      | some (bs, st1) => wcsrtombs_count enc rest st1 (acc + bs.length)

/-- Whether the scan `wcsnlen(src, n)` stays inside the readable source memory: it
reads at most `n` wide characters and stops at the first NUL. -/
def wcsnlen_readable : List Nat → Nat → Bool
  | _, 0 => true
  | [], _ + 1 => false
  | c :: rest, n + 1 => if c = 0 then true else wcsnlen_readable rest n

/-- Library `wcsrtombs(dst, &src, len, ps)`: the new heap, the returned value and
the conversion state left in `*ps`.  With a destination the library may first
look for the NUL of the source among its first `len` wide characters (glibc
does, with `wcsnlen`), so a source that is not readable that far is undefined
even where the conversion loop would stop earlier. -/
def wcsrtombs (enc : Encoder) (h : Heap) (dst : Nat) (src : List Nat) (len st : Nat) :
    Option (Heap × Nat × Nat) :=
  if dst = 0 then
    (wcsrtombs_count enc src st 0).map (fun r => (h, r, st))
  else if wcsnlen_readable src len = false then none
  else
    match block_at h dst with
    | none => none
    | some b =>
      match wcsrtombs_loop enc src len st [] with
      | none => none
      | some c =>
        if c.out.length ≤ b.length then
          some (heap_store h dst (c.out ++ b.drop c.out.length), c.ret, c.st)
        else none

/-- Library `wcrtomb` of a UTF-8 locale, which keeps no conversion state. -/
def utf8_wcrtomb : Encoder := fun wc st =>
  if wc < 0x80 then some ([wc], st)
  else if wc < 0x800 then some ([0xC0 + wc / 64, 0x80 + wc % 64], st)
  else if 0xD800 ≤ wc ∧ wc < 0xE000 then none
  else if wc < 0x10000 then
    some ([0xE0 + wc / 4096, 0x80 + wc / 64 % 64, 0x80 + wc % 64], st)
  else if wc < 0x110000 then
    some ([0xF0 + wc / 262144, 0x80 + wc / 4096 % 64, 0x80 + wc / 64 % 64, 0x80 + wc % 64], st)
  else none

/-! ## The program -/

/-- Source: `struct wcsenc_s`. -/
structure wcsenc_s where
  state : Nat
  buf : Nat
  bufsiz : Nat
  charlen : Nat
deriving DecidableEq, Repr

/-- Source: `wcsenc_new`.  `a1` answers the allocation of the byte buffer, `a2`
tells whether the allocation of the structure succeeds.  The result is the heap
and the returned handle (`none` for `NULL`). -/
def wcsenc_new (h : Heap) (charlen : Nat) (a1 : Alloc) (a2 : Bool) : Heap × Option wcsenc_s :=
  let bufsiz := (charlen + 1) * sizeof_wchar_t % SIZE_MOD
  let (h1, buf) := malloc h bufsiz a1
  if buf = 0 then (h1, none)
  else if a2 = false then (heap_free h1 buf, none)
  else (h1, some { state := 0, buf := buf, bufsiz := bufsiz, charlen := charlen })

/-- Source: `wcsenc_free`, called with a handle (`none` for `NULL`).  Only the
byte buffer is released. -/
def wcsenc_free (h : Heap) (self : Option wcsenc_s) : Option Heap :=
  match self with
  | none => some h
  | some s => if s.buf ≠ 0 then free h s.buf else some h

/-- Source: `wcsenc_reset`. -/
def wcsenc_reset (h : Heap) (self : wcsenc_s) : Option (Heap × wcsenc_s) :=
  match memset_zero h self.buf sizeof_wchar_t with
  | none => none
  | some h1 => some (h1, { self with state := 0 })

/-- Source: `wcsenc_realloc`.  The third component is the returned `int`. -/
def wcsenc_realloc (h : Heap) (self : wcsenc_s) (charlen : Nat) (a : Alloc) :
    Option (Heap × wcsenc_s × Int) :=
  let bufsiz := (charlen + 1) * sizeof_wchar_t % SIZE_MOD
  match realloc h self.buf bufsiz a with
  | none => none
  | some (h1, new_buf) =>
    if new_buf ≠ 0 then some (h1, self, -1)
    else some (h1, { self with buf := new_buf, charlen := charlen, bufsiz := bufsiz }, 0)

/-- Where `wcsenc_encode_wcs` stands after its growth step (source lines 74-79):
it has returned `ret`, or it goes on to call the converter. -/
inductive Grown where
  | returned (h : Heap) (self : wcsenc_s) (ret : Nat)
  | converts (h : Heap) (self : wcsenc_s)
deriving DecidableEq, Repr

/-- Source: `wcsenc_encode_wcs`, lines 70-79. -/
def encode_grow (h : Heap) (self : wcsenc_s) (len : Nat) (a : Alloc) : Option Grown :=
  if len > self.charlen then
    match wcsenc_realloc h self len a with
    | none => none
    | some (h1, self1, realloc_ret) =>
      if realloc_ret ≠ 0 then some (Grown.returned h1 self1 WCS_WRITE_ERROR)
      else some (Grown.converts h1 self1)
  else some (Grown.converts h self)

/-- Source: `wcsenc_encode_wcs`.  `str` is the readable wide-character memory at
the pointer `str`; the result is the heap, the structure and the returned
value. -/
def wcsenc_encode_wcs (enc : Encoder) (h : Heap) (self : wcsenc_s) (str : List Nat) (len : Nat)
    (a : Alloc) : Option (Heap × wcsenc_s × Nat) :=
  match encode_grow h self len a with
  | none => none
  | some (Grown.returned h1 self1 ret) => some (h1, self1, ret)
  | some (Grown.converts h1 self1) =>
    match wcsrtombs enc h1 self1.buf str (len * sizeof_wchar_t % SIZE_MOD) self1.state with
    | none => none
    | some (h2, retval, st) => some (h2, { self1 with state := st }, retval)

/-- Source: `wcsenc_bufsiz`. -/
def wcsenc_bufsiz (self : wcsenc_s) : Nat := self.bufsiz

/-- Source: `wcsenc_buf`. -/
def wcsenc_buf (self : wcsenc_s) : Nat := self.buf

/-- States of a buffer that a caller can reach: a successful `wcsenc_new`, then
any calls of `wcsenc_reset` and `wcsenc_encode_wcs` with defined behaviour. -/
inductive Reachable (enc : Encoder) : Heap → wcsenc_s → Prop where
  | new (h0 : Heap) (n : Nat) (a1 : Alloc) (a2 : Bool) (h : Heap) (s : wcsenc_s) :
      n < SIZE_MOD → wcsenc_new h0 n a1 a2 = (h, some s) → Reachable enc h s
  | reset (h : Heap) (s : wcsenc_s) (h1 : Heap) (s1 : wcsenc_s) :
      Reachable enc h s → wcsenc_reset h s = some (h1, s1) → Reachable enc h1 s1
  | encode (h : Heap) (s : wcsenc_s) (str : List Nat) (len : Nat) (a : Alloc)
      (h1 : Heap) (s1 : wcsenc_s) (r : Nat) :
      Reachable enc h s → len < SIZE_MOD →
      wcsenc_encode_wcs enc h s str len a = some (h1, s1, r) → Reachable enc h1 s1

/-! ## Concrete buffers used in the runs below -/

/-- Heap after `wcsenc_new(1)` when the allocator puts the buffer at address 100
and the new memory holds the byte 7 everywhere. -/
def heap_one : Heap := [(100, [7, 7, 7, 7, 7, 7, 7, 7])]

/-- Structure returned by that `wcsenc_new(1)`. -/
def self_one : wcsenc_s := ⟨0, 100, 8, 1⟩

/-- Heap after `wcsenc_new(4)`, buffer at address 100, new memory all 7. -/
def heap_four : Heap := [(100, List.replicate 20 7)]

/-- Structure returned by that `wcsenc_new(4)`. -/
def self_four : wcsenc_s := ⟨0, 100, 20, 4⟩

/-- Heap after `wcsenc_new(0)`, buffer at address 100, new memory all 7. -/
def heap_zero : Heap := [(100, [7, 7, 7, 7])]

/-- Structure returned by that `wcsenc_new(0)`. -/
def self_zero : wcsenc_s := ⟨0, 100, 4, 0⟩

/-! ## Facts about the heap -/

theorem block_at_heap_free_self (h : Heap) (p : Nat) : block_at (heap_free h p) p = none := by
  induction h with
  | nil => rfl
  | cons e t ih =>
    obtain ⟨q, b⟩ := e
    by_cases hq : q = p
    · simpa [heap_free, hq] using ih
    · simpa [heap_free, hq, block_at] using ih

theorem block_at_heap_free_ne (h : Heap) (p q : Nat) (hpq : q ≠ p) :
    block_at (heap_free h p) q = block_at h q := by
  induction h with
  | nil => rfl
  | cons e t ih =>
    obtain ⟨r, b⟩ := e
    by_cases hr : r = p
    · subst hr
      have hrq : r ≠ q := fun e => hpq e.symm
      simpa [heap_free, block_at, hrq] using ih
    · by_cases hrq : r = q
      · subst hrq
        simp [heap_free, hr, block_at]
      · simpa [heap_free, hr, block_at, hrq] using ih

theorem block_at_heap_store_self (h : Heap) (p : Nat) (b : List Nat) :
    block_at (heap_store h p b) p = some b := by
  simp [heap_store, block_at]

theorem block_at_heap_store_ne (h : Heap) (p q : Nat) (b : List Nat) (hpq : q ≠ p) :
    block_at (heap_store h p b) q = block_at h q := by
  have hne : p ≠ q := fun e => hpq e.symm
  simp [heap_store, block_at, hne, block_at_heap_free_ne h p q hpq]

theorem heap_free_heap_store (h : Heap) (p : Nat) (b : List Nat) :
    heap_free (heap_store h p b) p = heap_free h p := by
  simp [heap_store, heap_free, List.filter_filter]

/-- The heap and the structure of a successful `wcsenc_new`. -/
theorem wcsenc_new_success (h0 : Heap) (n : Nat) (a1 : Alloc) (a2 : Bool) (h : Heap)
    (s : wcsenc_s) (hnew : wcsenc_new h0 n a1 a2 = (h, some s)) :
    a1.addr ≠ 0 ∧
      h = heap_store h0 a1.addr (fresh_bytes ((n + 1) * sizeof_wchar_t % SIZE_MOD) a1.fill) ∧
      s = ⟨0, a1.addr, (n + 1) * sizeof_wchar_t % SIZE_MOD, n⟩ := by
  unfold wcsenc_new malloc at hnew
  by_cases ha : a1.addr = 0
  · simp [ha] at hnew
  · cases a2
    · simp [ha] at hnew
    · simp [ha] at hnew
      exact ⟨ha, hnew.1.symm, hnew.2.symm⟩

/-! ## Facts about the growth step -/

/-- The three ways through the growth step of `wcsenc_encode_wcs`. -/
theorem encode_grow_cases (h : Heap) (s : wcsenc_s) (len : Nat) (a : Alloc) (g : Grown)
    (hg : encode_grow h s len a = some g) :
    (len ≤ s.charlen ∧ g = Grown.converts h s) ∨
    (s.charlen < len ∧ ∃ h1, g = Grown.returned h1 s WCS_WRITE_ERROR) ∨
    (s.charlen < len ∧ ∃ h1, g = Grown.converts h1
      { s with buf := 0, charlen := len, bufsiz := (len + 1) * sizeof_wchar_t % SIZE_MOD }) := by
  unfold encode_grow at hg
  by_cases hlen : len > s.charlen
  · simp only [hlen, if_true] at hg
    unfold wcsenc_realloc at hg
    cases hr : realloc h s.buf ((len + 1) * sizeof_wchar_t % SIZE_MOD) a with
    | none => simp [hr] at hg
    | some r =>
      obtain ⟨h1, new_buf⟩ := r
      by_cases hn : new_buf = 0
      · subst hn
        simp [hr] at hg
        exact Or.inr (Or.inr ⟨hlen, h1, hg.symm⟩)
      · simp [hr, hn] at hg
        exact Or.inr (Or.inl ⟨hlen, h1, hg.symm⟩)
  · simp only [hlen, if_false, Option.some.injEq] at hg
    exact Or.inl ⟨Nat.le_of_not_gt hlen, hg.symm⟩

/-- What a defined `wcsenc_encode_wcs` does to the fields other than the
conversion state. -/
theorem wcsenc_encode_wcs_fields (enc : Encoder) (h : Heap) (s : wcsenc_s) (str : List Nat)
    (len : Nat) (a : Alloc) (h1 : Heap) (s1 : wcsenc_s) (r : Nat)
    (he : wcsenc_encode_wcs enc h s str len a = some (h1, s1, r)) :
    (s1.buf = s.buf ∧ s1.bufsiz = s.bufsiz ∧ s1.charlen = s.charlen) ∨
    (s.charlen < len ∧ s1.buf = 0 ∧ s1.bufsiz = (len + 1) * sizeof_wchar_t % SIZE_MOD ∧
      s1.charlen = len) := by
  unfold wcsenc_encode_wcs at he
  cases hg : encode_grow h s len a with
  | none => simp [hg] at he
  | some g =>
    rcases encode_grow_cases h s len a g hg with ⟨_, rfl⟩ | ⟨_, h2, rfl⟩ | ⟨hlt, h2, rfl⟩
    · simp only [hg] at he
      cases hw : wcsrtombs enc h s.buf str (len * sizeof_wchar_t % SIZE_MOD) s.state with
      | none => simp [hw] at he
      | some w =>
        obtain ⟨h3, retval, st⟩ := w
        simp [hw] at he
        obtain ⟨_, hs, _⟩ := he
        subst hs
        exact Or.inl ⟨rfl, rfl, rfl⟩
    · simp [hg] at he
      obtain ⟨_, hs, _⟩ := he
      subst hs
      exact Or.inl ⟨rfl, rfl, rfl⟩
    · simp only [hg] at he
      cases hw : wcsrtombs enc h2 0 str (len * sizeof_wchar_t % SIZE_MOD) s.state with
      | none => simp [hw] at he
      | some w =>
        obtain ⟨h3, retval, st⟩ := w
        simp [hw] at he
        obtain ⟨_, hs, _⟩ := he
        subst hs
        exact Or.inr ⟨hlt, rfl, rfl, rfl⟩

/-- In every reachable state `bufsiz` is `(charlen + 1) * sizeof(wchar_t)` in
`size_t` arithmetic. -/
theorem reachable_bufsiz (enc : Encoder) (h : Heap) (s : wcsenc_s) (hr : Reachable enc h s) :
    s.bufsiz = (s.charlen + 1) * sizeof_wchar_t % SIZE_MOD := by
  induction hr with
  | new h0 n a1 a2 h s _ hnew =>
    obtain ⟨_, _, hs⟩ := wcsenc_new_success h0 n a1 a2 h s hnew
    rw [hs]
  | reset h s h1 s1 _ hreset ih =>
    unfold wcsenc_reset at hreset
    cases hm : memset_zero h s.buf sizeof_wchar_t with
    | none => simp [hm] at hreset
    | some h2 =>
      simp [hm] at hreset
      obtain ⟨_, hs⟩ := hreset
      subst hs
      exact ih
  | encode h s str len a h1 s1 r _ _ he ih =>
    rcases wcsenc_encode_wcs_fields enc h s str len a h1 s1 r he with
      ⟨_, hb, hc⟩ | ⟨_, _, hb, hc⟩
    · rw [hb, hc]; exact ih
    · rw [hb, hc]

/-! ## Facts about the converter -/

/-- The scan of a source that holds a NUL stays inside it, whatever the limit. -/
theorem wcsnlen_readable_of_mem : ∀ (src : List Nat) (n : Nat),
    0 ∈ src → wcsnlen_readable src n = true := by
  intro src
  induction src with
  | nil => intro n hmem; simp at hmem
  | cons c t ih =>
    intro n hmem
    cases n with
    | zero => simp [wcsnlen_readable]
    | succ m =>
      by_cases hc : c = 0
      · simp [wcsnlen_readable, hc]
      · have ht : 0 ∈ t := by
          rcases List.mem_cons.mp hmem with h0 | h0
          · exact absurd h0.symm hc
          · exact h0
        simp [wcsnlen_readable, hc, ih m ht]

/-- In a UTF-8 locale a non-NUL ASCII character is its own single byte. -/
theorem utf8_wcrtomb_ascii (c : Nat) (_hpos : 0 < c) (hc : c < 128) :
    utf8_wcrtomb c 0 = some ([c], 0) := by
  simp [utf8_wcrtomb, hc]

/-- The converter on non-NUL ASCII characters followed by a NUL, with room for
all of them and the terminator: every character is stored as one byte, then the
terminator, and the count of characters is returned. -/
theorem wcsrtombs_loop_ascii (enc : Encoder)
    (hascii : ∀ c, 0 < c → c < 128 → enc c 0 = some ([c], 0)) (rest : List Nat) :
    ∀ (cs : List Nat) (rem : Nat) (out : List Nat),
      (∀ c ∈ cs, 0 < c ∧ c < 128) → cs.length < rem →
      wcsrtombs_loop enc (cs ++ 0 :: rest) rem 0 out
        = some ⟨out.length + cs.length, out ++ cs ++ [0], 0⟩ := by
  intro cs
  induction cs with
  | nil =>
    intro rem out _ hrem
    have hr : rem ≠ 0 := by simp at hrem; omega
    simp [wcsrtombs_loop, hr]
  | cons c t ih =>
    intro rem out hcs hrem
    have hc := hcs c (List.mem_cons_self c t)
    have hr : rem ≠ 0 := by simp at hrem; omega
    have hc0 : c ≠ 0 := by omega
    have ht : t.length < rem - 1 := by simp at hrem; omega
    have hnot : ¬ rem < 1 := by omega
    have hstep : wcsrtombs_loop enc (c :: t ++ 0 :: rest) rem 0 out
        = wcsrtombs_loop enc (t ++ 0 :: rest) (rem - 1) 0 (out ++ [c]) := by
      simp [wcsrtombs_loop, hr, hc0, hascii c hc.1 hc.2, hnot]
    rw [hstep, ih (rem - 1) (out ++ [c]) (fun x hx => hcs x (List.mem_cons_of_mem c hx)) ht]
    simp [Nat.add_assoc, Nat.add_comm 1]

/-- The converter on an unrepresentable character that follows non-NUL
representable characters of at most `sizeof(wchar_t)` bytes each, with room for
all of them: it returns `WCS_WRITE_ERROR`, having stored at most
`sizeof(wchar_t)` bytes for each character before. -/
theorem wcsrtombs_loop_invalid (enc : Encoder) (bad : Nat) (rest : List Nat)
    (hbad0 : bad ≠ 0) (hbad : ∀ st, enc bad st = none) :
    ∀ (pre : List Nat) (rem st : Nat) (out : List Nat),
      (∀ c ∈ pre, c ≠ 0 ∧
        ∀ st, ∃ bs st1, enc c st = some (bs, st1) ∧ bs.length ≤ sizeof_wchar_t) →
      sizeof_wchar_t * pre.length < rem →
      ∃ out1 st1, wcsrtombs_loop enc (pre ++ bad :: rest) rem st out
          = some ⟨WCS_WRITE_ERROR, out1, st1⟩ ∧
        out1.length ≤ out.length + sizeof_wchar_t * pre.length := by
  intro pre
  induction pre with
  | nil =>
    intro rem st out _ hrem
    have hr : rem ≠ 0 := by omega
    exact ⟨out, st, by simp [wcsrtombs_loop, hr, hbad0, hbad st], by simp⟩
  | cons c t ih =>
    intro rem st out hpre hrem
    obtain ⟨hc0, hc⟩ := hpre c (List.mem_cons_self c t)
    obtain ⟨bs, st1, henc, hbs⟩ := hc st
    simp only [sizeof_wchar_t, List.length_cons] at hrem hbs
    have hr : rem ≠ 0 := by omega
    have hnot : ¬ rem < bs.length := by omega
    have hstep : wcsrtombs_loop enc (c :: t ++ bad :: rest) rem st out
        = wcsrtombs_loop enc (t ++ bad :: rest) (rem - bs.length) st1 (out ++ bs) := by
      simp [wcsrtombs_loop, hr, hc0, henc, hnot]
    have hrem2 : sizeof_wchar_t * t.length < rem - bs.length := by
      simp only [sizeof_wchar_t]; omega
    obtain ⟨out1, st2, hrun, hlen⟩ := ih (rem - bs.length) st1 (out ++ bs)
      (fun x hx => hpre x (List.mem_cons_of_mem c hx)) hrem2
    refine ⟨out1, st2, by rw [hstep, hrun], ?_⟩
    simp only [sizeof_wchar_t, List.length_append, List.length_cons] at hlen ⊢
    omega

/-- The converter never stores more than the limit allows, and a returned value
other than `WCS_WRITE_ERROR` is the count of bytes stored before the
terminator: it is at most the limit and at most the count of bytes stored. -/
theorem wcsrtombs_loop_bounds (enc : Encoder) :
    ∀ (src : List Nat) (rem st : Nat) (out : List Nat) (c : Conv),
      wcsrtombs_loop enc src rem st out = some c →
      c.out.length ≤ out.length + rem ∧
        (c.ret = WCS_WRITE_ERROR ∨ (c.ret ≤ c.out.length ∧ c.ret ≤ out.length + rem)) := by
  intro src
  induction src with
  | nil =>
    intro rem st out c hrun
    by_cases hr : rem = 0
    · simp [wcsrtombs_loop, hr] at hrun
      subst hrun
      simp
    · simp [wcsrtombs_loop, hr] at hrun
  | cons w t ih =>
    intro rem st out c hrun
    by_cases hr : rem = 0
    · simp [wcsrtombs_loop, hr] at hrun
      subst hrun
      simp
    · by_cases hw : w = 0
      · simp [wcsrtombs_loop, hr, hw] at hrun
        subst hrun
        simp only [List.length_append, List.length_singleton]
        omega
      · cases henc : enc w st with
        | none =>
          simp [wcsrtombs_loop, hr, hw, henc] at hrun
          subst hrun
          simp
        | some e =>
          obtain ⟨bs, st1⟩ := e
          by_cases hfit : rem < bs.length
          · simp [wcsrtombs_loop, hr, hw, henc, hfit] at hrun
            subst hrun
            simp
          · simp [wcsrtombs_loop, hr, hw, henc, hfit] at hrun
            have := ih (rem - bs.length) st1 (out ++ bs) c hrun
            simp only [List.length_append] at this
            omega

/-- An encode that needs no growth, on a buffer whose storage is an allocated
block with room for what the converter stores, of a source readable as far as
the library scans it. -/
theorem wcsenc_encode_wcs_stored (enc : Encoder) (h : Heap) (s : wcsenc_s) (b : List Nat)
    (str : List Nat) (len : Nat) (a : Alloc) (c : Conv)
    (hp : s.buf ≠ 0) (hb : block_at h s.buf = some b) (hlen : len ≤ s.charlen)
    (hscan : wcsnlen_readable str (len * sizeof_wchar_t % SIZE_MOD) = true)
    (hrun : wcsrtombs_loop enc str (len * sizeof_wchar_t % SIZE_MOD) s.state [] = some c)
    (hroom : c.out.length ≤ b.length) :
    wcsenc_encode_wcs enc h s str len a
      = some (heap_store h s.buf (c.out ++ b.drop c.out.length),
          { s with state := c.st }, c.ret) := by
  have hng : ¬ len > s.charlen := Nat.not_lt.mpr hlen
  simp [wcsenc_encode_wcs, encode_grow, hng, wcsrtombs, hp, hb, hscan, hrun, hroom]

/-- Length of a new block. -/
theorem fresh_bytes_length (size : Nat) (fill : List Nat) :
    (fresh_bytes size fill).length = size := by
  simp [fresh_bytes]

/-- The heap and the structure after `wcsenc_reset` on a buffer whose storage is
an allocated block of at least `sizeof(wchar_t)` bytes. -/
theorem wcsenc_reset_defined (h : Heap) (s : wcsenc_s) (b : List Nat)
    (hp : s.buf ≠ 0) (hb : block_at h s.buf = some b) (hlen : sizeof_wchar_t ≤ b.length) :
    wcsenc_reset h s
      = some (heap_store h s.buf (List.replicate sizeof_wchar_t 0 ++ b.drop sizeof_wchar_t),
          { s with state := 0 }) := by
  simp [wcsenc_reset, memset_zero, hp, hb, hlen]

/-! ## Construction and reset -/

/-- On a buffer whose storage is an allocated block of at least
`sizeof(wchar_t)` bytes, `wcsenc_reset` is defined, a second `wcsenc_reset`
changes nothing more, `charlen`, `bufsiz` and `buf` are kept, the conversion
state becomes zero, the first `sizeof(wchar_t)` bytes of the storage become zero
and every other byte, of the storage and of the other blocks, is kept. -/
theorem wcsenc_reset_idempotent (h : Heap) (s : wcsenc_s) (b : List Nat)
    (hp : wcsenc_buf s ≠ 0) (hb : block_at h (wcsenc_buf s) = some b)
    (hlen : sizeof_wchar_t ≤ b.length) :
    ∃ h1 s1, wcsenc_reset h s = some (h1, s1) ∧
      wcsenc_reset h1 s1 = some (h1, s1) ∧
      s1.charlen = s.charlen ∧ wcsenc_bufsiz s1 = wcsenc_bufsiz s ∧
      wcsenc_buf s1 = wcsenc_buf s ∧ s1.state = 0 ∧
      block_at h1 (wcsenc_buf s1)
        = some (List.replicate sizeof_wchar_t 0 ++ b.drop sizeof_wchar_t) ∧
      (∀ q, q ≠ wcsenc_buf s → block_at h1 q = block_at h q) := by
  obtain ⟨st, buf, bufsiz, charlen⟩ := s
  simp only [wcsenc_buf] at hp hb
  have hlen2 : sizeof_wchar_t ≤
      (List.replicate sizeof_wchar_t 0 ++ b.drop sizeof_wchar_t).length := by
    simp [sizeof_wchar_t] at hlen ⊢
  refine ⟨heap_store h buf (List.replicate sizeof_wchar_t 0 ++ b.drop sizeof_wchar_t),
    ⟨0, buf, bufsiz, charlen⟩, ?_, ?_, rfl, rfl, rfl, rfl, ?_, ?_⟩
  · simp [wcsenc_reset, memset_zero, hp, hb, hlen]
  · simp only [wcsenc_reset, memset_zero, hp, if_false, block_at_heap_store_self, hlen2, if_true]
    have hd : List.drop sizeof_wchar_t
        (List.replicate sizeof_wchar_t 0 ++ b.drop sizeof_wchar_t) = b.drop sizeof_wchar_t := by
      simp [sizeof_wchar_t]
    rw [hd]
    simp [heap_store, heap_free_heap_store, heap_free, List.filter_filter]
  · simp [wcsenc_buf, block_at_heap_store_self]
  · intro q hq
    exact block_at_heap_store_ne h buf q _ hq

/-- The reset of the buffer of `wcsenc_new(1)` in the conversion state 3. -/
theorem wcsenc_reset_idempotent_witness :
    ∃ h1 s1, wcsenc_reset heap_one ⟨3, 100, 8, 1⟩ = some (h1, s1) ∧
      wcsenc_reset h1 s1 = some (h1, s1) ∧
      s1.charlen = (wcsenc_s.mk 3 100 8 1).charlen ∧
      wcsenc_bufsiz s1 = wcsenc_bufsiz ⟨3, 100, 8, 1⟩ ∧
      wcsenc_buf s1 = wcsenc_buf ⟨3, 100, 8, 1⟩ ∧ s1.state = 0 ∧
      block_at h1 (wcsenc_buf s1)
        = some (List.replicate sizeof_wchar_t 0 ++ [7, 7, 7, 7, 7, 7, 7, 7].drop sizeof_wchar_t) ∧
      (∀ q, q ≠ wcsenc_buf ⟨3, 100, 8, 1⟩ → block_at h1 q = block_at heap_one q) :=
  wcsenc_reset_idempotent heap_one ⟨3, 100, 8, 1⟩ [7, 7, 7, 7, 7, 7, 7, 7] (by decide)
    (by decide) (by decide)

/-- C9, as amended: whenever `wcsenc_new(n)` succeeds the returned buffer has
`charlen = n`, `bufsiz = (n + 1) * sizeof(wchar_t)` in `size_t` arithmetic, a zero
conversion state and a non-null storage block of `bufsiz` bytes that still holds
exactly what the allocator left in the new memory. -/
theorem wcsenc_new_initial (h0 : Heap) (n : Nat) (a1 : Alloc) (a2 : Bool) (h : Heap)
    (s : wcsenc_s) (hnew : wcsenc_new h0 n a1 a2 = (h, some s)) :
    s.charlen = n ∧ s.state = 0 ∧
      wcsenc_bufsiz s = (n + 1) * sizeof_wchar_t % SIZE_MOD ∧
      wcsenc_buf s ≠ 0 ∧
      block_at h (wcsenc_buf s) = some (fresh_bytes (wcsenc_bufsiz s) a1.fill) := by
  unfold wcsenc_new malloc at hnew
  by_cases ha : a1.addr = 0
  · simp [ha] at hnew
  · cases a2
    · simp [ha] at hnew
    · simp [ha] at hnew
      obtain ⟨hh, hs⟩ := hnew
      subst hh hs
      simp [wcsenc_bufsiz, wcsenc_buf, ha, block_at_heap_store_self]

/-- C9, at a concrete input: `wcsenc_new(1)` with new memory all 7. -/
theorem wcsenc_new_initial_witness :
    self_one.charlen = 1 ∧ self_one.state = 0 ∧
      wcsenc_bufsiz self_one = (1 + 1) * sizeof_wchar_t % SIZE_MOD ∧
      wcsenc_buf self_one ≠ 0 ∧
      block_at heap_one (wcsenc_buf self_one)
        = some (fresh_bytes (wcsenc_bufsiz self_one) [7, 7, 7, 7, 7, 7, 7, 7]) :=
  wcsenc_new_initial [] 1 ⟨100, [7, 7, 7, 7, 7, 7, 7, 7]⟩ true heap_one self_one (by decide)

/-- C9, as stated, fails: after `wcsenc_new(1)` on new memory that holds the byte
7, the first `sizeof(wchar_t)` bytes of the storage are 7, not zero. -/
theorem wcsenc_new_storage_not_zeroed :
    wcsenc_new [] 1 ⟨100, [7, 7, 7, 7, 7, 7, 7, 7]⟩ true = (heap_one, some self_one) ∧
      (block_at heap_one (wcsenc_buf self_one)).map (List.take sizeof_wchar_t)
        = some [7, 7, 7, 7] ∧
      (block_at heap_one (wcsenc_buf self_one)).map (List.take sizeof_wchar_t)
        ≠ some (List.replicate sizeof_wchar_t 0) := by
  decide

/-! ## Growth: the test on the result of `realloc` is inverted -/

/-- C1, at the failing input `wcsenc_new(1)` then an encode of four ASCII
characters: `realloc` succeeds (it returns the address 200), and
`wcsenc_encode_wcs` returns `WCS_WRITE_ERROR` with the structure unchanged
(`charlen` still 1, `bufsiz` still 8, `buf` still the released address 100). -/
theorem encode_growth_success_reports_error :
    wcsenc_new [] 1 ⟨100, [7, 7, 7, 7, 7, 7, 7, 7]⟩ true = (heap_one, some self_one) ∧
      realloc heap_one (wcsenc_buf self_one) ((4 + 1) * sizeof_wchar_t % SIZE_MOD) ⟨200, []⟩
        = some ([(200, [7, 7, 7, 7, 7, 7, 7, 7, 0, 0, 0, 0, 0, 0, 0, 0, 0, 0, 0, 0])], 200) ∧
      wcsenc_encode_wcs utf8_wcrtomb heap_one self_one [88, 89, 90, 87, 0] 4 ⟨200, []⟩
        = some ([(200, [7, 7, 7, 7, 7, 7, 7, 7, 0, 0, 0, 0, 0, 0, 0, 0, 0, 0, 0, 0])],
            self_one, WCS_WRITE_ERROR) ∧
      self_one.charlen = 1 ∧ wcsenc_bufsiz self_one = 8 := by
  decide

/-- C2, at the failing input `wcsenc_new(1)` then an encode of four ASCII
characters: `realloc` fails (it returns `NULL` and keeps the old block), and
`wcsenc_encode_wcs` stores `NULL` in `buf`, sets `charlen` to 4 and `bufsiz` to 20,
calls the converter and returns 4, not `WCS_WRITE_ERROR`.  A later encode of one
character, which the old capacity supported, returns 1 and stores nothing, while
before the failed attempt it stored the character in the storage. -/
theorem encode_growth_failure_not_atomic :
    realloc heap_one (wcsenc_buf self_one) ((4 + 1) * sizeof_wchar_t % SIZE_MOD) ⟨0, []⟩
        = some (heap_one, 0) ∧
      encode_grow heap_one self_one 4 ⟨0, []⟩
        = some (Grown.converts heap_one ⟨0, 0, 20, 4⟩) ∧
      wcsenc_encode_wcs utf8_wcrtomb heap_one self_one [88, 89, 90, 87, 0] 4 ⟨0, []⟩
        = some (heap_one, ⟨0, 0, 20, 4⟩, 4) ∧
      4 ≠ WCS_WRITE_ERROR ∧
      wcsenc_encode_wcs utf8_wcrtomb heap_one ⟨0, 0, 20, 4⟩ [65, 0] 1 ⟨0, []⟩
        = some (heap_one, ⟨0, 0, 20, 4⟩, 1) ∧
      wcsenc_encode_wcs utf8_wcrtomb heap_one self_one [65, 0] 1 ⟨0, []⟩
        = some ([(100, [65, 0, 7, 7, 7, 7, 7, 7])], self_one, 1) := by
  decide

/-- C4, at the failing input `wcsenc_new(1)` then an encode of count 4: when
`realloc` fails the reachable state has a null storage pointer; when `realloc`
succeeds the reachable state keeps the address 100, which is no longer an
allocated block, and `bufsiz` 8, while the block that was allocated has 20
bytes. -/
theorem storage_invariant_broken :
    Reachable utf8_wcrtomb heap_one ⟨0, 0, 20, 4⟩ ∧
      wcsenc_buf ⟨0, 0, 20, 4⟩ = 0 ∧
      Reachable utf8_wcrtomb
        [(200, [7, 7, 7, 7, 7, 7, 7, 7, 0, 0, 0, 0, 0, 0, 0, 0, 0, 0, 0, 0])] self_one ∧
      block_at [(200, [7, 7, 7, 7, 7, 7, 7, 7, 0, 0, 0, 0, 0, 0, 0, 0, 0, 0, 0, 0])]
        (wcsenc_buf self_one) = none := by
  have hnew : Reachable utf8_wcrtomb heap_one self_one :=
    Reachable.new [] 1 ⟨100, [7, 7, 7, 7, 7, 7, 7, 7]⟩ true heap_one self_one
      (by decide) (by decide)
  refine ⟨?_, by decide, ?_, by decide⟩
  · exact Reachable.encode heap_one self_one [88, 89, 90, 87, 0] 4 ⟨0, []⟩ heap_one
      ⟨0, 0, 20, 4⟩ 4 hnew (by decide) (by decide)
  · exact Reachable.encode heap_one self_one [88, 89, 90, 87, 0] 4 ⟨200, []⟩ _ self_one
      WCS_WRITE_ERROR hnew (by decide) (by decide)

/-- C7, at the failing input `wcsenc_new(0)` then an encode of count 1 whose
source string has five characters before its NUL: `realloc` fails, the converter
is called with a null destination, ignores the limit and returns 5, which is
more than `count * sizeof(wchar_t) = 4`. -/
theorem encode_return_exceeds_limit :
    wcsenc_new [] 0 ⟨100, [7, 7, 7, 7]⟩ true = (heap_zero, some self_zero) ∧
      wcsenc_encode_wcs utf8_wcrtomb heap_zero self_zero [65, 66, 67, 68, 69, 0] 1 ⟨0, []⟩
        = some (heap_zero, ⟨0, 0, 8, 1⟩, 5) ∧
      5 ≠ WCS_WRITE_ERROR ∧
      ¬ (5 ≤ 1 * sizeof_wchar_t % SIZE_MOD) := by
  decide

/-- C8, at the failing input `wcsenc_new(1)`, then an encode of count 4 for which
`realloc` returns `NULL`, then `wcsenc_reset`: the state after the encode is
reachable and its storage pointer is null, so `wcsenc_reset` calls
`memset(NULL, 0, sizeof(wchar_t))`, which is undefined; no reset state is
established. -/
theorem wcsenc_reset_on_null_storage :
    wcsenc_encode_wcs utf8_wcrtomb heap_one self_one [88, 89, 90, 87, 0] 4 ⟨0, []⟩
        = some (heap_one, ⟨0, 0, 20, 4⟩, 4) ∧
      Reachable utf8_wcrtomb heap_one ⟨0, 0, 20, 4⟩ ∧
      wcsenc_buf ⟨0, 0, 20, 4⟩ = 0 ∧
      memset_zero heap_one (wcsenc_buf ⟨0, 0, 20, 4⟩) sizeof_wchar_t = none ∧
      wcsenc_reset heap_one ⟨0, 0, 20, 4⟩ = none := by
  have hnew : Reachable utf8_wcrtomb heap_one self_one :=
    Reachable.new [] 1 ⟨100, [7, 7, 7, 7, 7, 7, 7, 7]⟩ true heap_one self_one
      (by decide) (by decide)
  refine ⟨by decide, ?_, by decide, by decide, by decide⟩
  exact Reachable.encode heap_one self_one [88, 89, 90, 87, 0] 4 ⟨0, []⟩ heap_one
    ⟨0, 0, 20, 4⟩ 4 hnew (by decide) (by decide)

/-- C10, at the failing input `wcsenc_new(1)` then an encode of count 4: when
`realloc` fails the call goes on to the converter and the destination it passes
is the null pointer. -/
theorem converter_called_with_null :
    Reachable utf8_wcrtomb heap_one self_one ∧
      encode_grow heap_one self_one 4 ⟨0, []⟩
        = some (Grown.converts heap_one ⟨0, 0, 20, 4⟩) ∧
      wcsenc_buf ⟨0, 0, 20, 4⟩ = 0 := by
  refine ⟨?_, by decide, by decide⟩
  exact Reachable.new [] 1 ⟨100, [7, 7, 7, 7, 7, 7, 7, 7]⟩ true heap_one self_one
    (by decide) (by decide)

/-! ## Runs that refute a claim as it is stated -/

/-- C3, as stated, fails: on the buffer of `wcsenc_new(4)` an encode of the three
ASCII-range characters `[65, 0, 66]` returns 1, the converter stopping at the NUL;
and an encode of count 3 whose source goes on after `[65, 66, 67]` returns 4, the
converter going on to the NUL of the source. -/
theorem encode_not_exactly_count :
    wcsenc_new [] 4 ⟨100, List.replicate 20 7⟩ true = (heap_four, some self_four) ∧
      (wcsenc_encode_wcs utf8_wcrtomb heap_four self_four [65, 0, 66] 3 ⟨0, []⟩).map
        (fun r => r.2.2) = some 1 ∧
      (wcsenc_encode_wcs utf8_wcrtomb heap_four self_four [65, 66, 67, 68, 0] 3 ⟨0, []⟩).map
        (fun r => r.2.2) = some 4 := by
  decide

/-- C5, as stated, fails: on the buffer of `wcsenc_new(0)`, whose `bufsiz` is 4, an
encode of count `2 ^ 64 - 1` for which `realloc` returns `NULL` leaves `bufsiz = 0`,
the product `(count + 1) * sizeof(wchar_t)` wrapping around. -/
theorem bufsiz_decreases_on_wraparound :
    wcsenc_new [] 0 ⟨100, [7, 7, 7, 7]⟩ true = (heap_zero, some self_zero) ∧
      wcsenc_encode_wcs utf8_wcrtomb heap_zero self_zero [0] (2 ^ 64 - 1) ⟨0, []⟩
        = some (heap_zero, ⟨0, 0, 0, 2 ^ 64 - 1⟩, 0) ∧
      wcsenc_bufsiz ⟨0, 0, 0, 2 ^ 64 - 1⟩ < wcsenc_bufsiz self_zero := by
  decide

/-- C6, as stated, fails: on the buffer of `wcsenc_new(4)` an encode of count 3 of
`[65, 0, 0xD800]`, whose last character has no UTF-8 representation, returns 1 and
not `WCS_WRITE_ERROR`, the converter stopping at the NUL. -/
theorem encode_invalid_after_nul_not_reported :
    utf8_wcrtomb 0xD800 0 = none ∧
      (wcsenc_encode_wcs utf8_wcrtomb heap_four self_four [65, 0, 0xD800] 3 ⟨0, []⟩).map
        (fun r => r.2.2) = some 1 ∧
      1 ≠ WCS_WRITE_ERROR := by
  decide

/-! ## Capacity along encode calls -/

/-- C5, as amended: for every reachable buffer and every defined
`wcsenc_encode_wcs` call, `charlen` after the call is at least `charlen` before
it; `bufsiz` after the call is at least `bufsiz` before it when
`(count + 1) * sizeof(wchar_t)` does not wrap around; and when
`count <= charlen` the growth step does nothing, the outcome is the same
whatever the allocator would answer, and `charlen`, `bufsiz` and `buf` are
unchanged. -/
theorem encode_capacity_monotone (enc : Encoder) (h : Heap) (s : wcsenc_s)
    (hr : Reachable enc h s) (str : List Nat) (len : Nat) (a : Alloc) (h1 : Heap)
    (s1 : wcsenc_s) (r : Nat)
    (he : wcsenc_encode_wcs enc h s str len a = some (h1, s1, r)) :
    s.charlen ≤ s1.charlen ∧
      ((len + 1) * sizeof_wchar_t < SIZE_MOD → wcsenc_bufsiz s ≤ wcsenc_bufsiz s1) ∧
      (len ≤ s.charlen →
        encode_grow h s len a = some (Grown.converts h s) ∧
        (∀ a2, wcsenc_encode_wcs enc h s str len a2 = some (h1, s1, r)) ∧
        s1.charlen = s.charlen ∧ wcsenc_bufsiz s1 = wcsenc_bufsiz s ∧
        wcsenc_buf s1 = wcsenc_buf s) := by
  have hinv := reachable_bufsiz enc h s hr
  have hf := wcsenc_encode_wcs_fields enc h s str len a h1 s1 r he
  refine ⟨?_, ?_, ?_⟩
  · rcases hf with ⟨_, _, hc⟩ | ⟨hlt, _, _, hc⟩
    · exact le_of_eq hc.symm
    · rw [hc]; exact Nat.le_of_lt hlt
  · intro hno
    simp only [wcsenc_bufsiz]
    rcases hf with ⟨_, hb, _⟩ | ⟨hlt, _, hb, _⟩
    · exact le_of_eq hb.symm
    · rw [hb, hinv, Nat.mod_eq_of_lt hno]
      refine le_trans (Nat.mod_le _ _) ?_
      exact Nat.mul_le_mul_right _ (by omega)
  · intro hle
    have hng : ¬ len > s.charlen := Nat.not_lt.mpr hle
    have hgrow : ∀ a2, encode_grow h s len a2 = some (Grown.converts h s) := by
      intro a2
      simp [encode_grow, hng]
    refine ⟨hgrow a, ?_, ?_⟩
    · intro a2
      rw [← he]
      simp only [wcsenc_encode_wcs, hgrow a2, hgrow a]
    · rcases hf with ⟨hb, hz, hc⟩ | ⟨hlt, _, _, _⟩
      · exact ⟨hc, hz, hb⟩
      · omega

/-- C5 as amended, at concrete inputs on the buffer of `wcsenc_new(1)`: an encode of
one character, which needs no growth, and an encode of count 4 for which
`realloc` returns `NULL`. -/
theorem encode_capacity_monotone_witness :
    Reachable utf8_wcrtomb heap_one self_one ∧
      wcsenc_encode_wcs utf8_wcrtomb heap_one self_one [65, 0] 1 ⟨200, []⟩
        = some ([(100, [65, 0, 7, 7, 7, 7, 7, 7])], self_one, 1) ∧
      (encode_grow heap_one self_one 1 ⟨200, []⟩ = some (Grown.converts heap_one self_one) ∧
        (∀ a2, wcsenc_encode_wcs utf8_wcrtomb heap_one self_one [65, 0] 1 a2
          = some ([(100, [65, 0, 7, 7, 7, 7, 7, 7])], self_one, 1)) ∧
        self_one.charlen = self_one.charlen ∧
        wcsenc_bufsiz self_one = wcsenc_bufsiz self_one ∧
        wcsenc_buf self_one = wcsenc_buf self_one) ∧
      wcsenc_encode_wcs utf8_wcrtomb heap_one self_one [88, 89, 90, 87, 0] 4 ⟨0, []⟩
        = some (heap_one, ⟨0, 0, 20, 4⟩, 4) ∧
      self_one.charlen ≤ (wcsenc_s.mk 0 0 20 4).charlen ∧
      wcsenc_bufsiz self_one ≤ wcsenc_bufsiz (wcsenc_s.mk 0 0 20 4) :=
  have hr : Reachable utf8_wcrtomb heap_one self_one :=
    Reachable.new [] 1 ⟨100, [7, 7, 7, 7, 7, 7, 7, 7]⟩ true heap_one self_one
      (by decide) (by decide)
  have he : wcsenc_encode_wcs utf8_wcrtomb heap_one self_one [65, 0] 1 ⟨200, []⟩
      = some ([(100, [65, 0, 7, 7, 7, 7, 7, 7])], self_one, 1) := by decide
  have hg : wcsenc_encode_wcs utf8_wcrtomb heap_one self_one [88, 89, 90, 87, 0] 4 ⟨0, []⟩
      = some (heap_one, ⟨0, 0, 20, 4⟩, 4) := by decide
  have t := encode_capacity_monotone utf8_wcrtomb heap_one self_one hr [65, 0] 1 ⟨200, []⟩
    [(100, [65, 0, 7, 7, 7, 7, 7, 7])] self_one 1 he
  have u := encode_capacity_monotone utf8_wcrtomb heap_one self_one hr [88, 89, 90, 87, 0] 4
    ⟨0, []⟩ heap_one ⟨0, 0, 20, 4⟩ 4 hg
  ⟨hr, he, t.2.2 (by decide), hg, u.1, u.2.1 (by decide)⟩

/-! ## Encoding ASCII strings -/

/-- C3, as amended: on a buffer whose storage is an allocated block of
`(charlen + 1) * sizeof(wchar_t)` bytes and whose conversion state is zero, for a
target encoding that stores non-NUL ASCII characters as themselves, an encode of
`count <= charlen` non-NUL ASCII characters followed by a NUL wide character
returns `count`, leaves the structure as it was, and bytes `[0, count)` of the
storage are those characters in order. -/
theorem encode_ascii_exact (enc : Encoder)
    (hascii : ∀ c, 0 < c → c < 128 → enc c 0 = some ([c], 0))
    (h : Heap) (s : wcsenc_s) (b : List Nat)
    (hp : wcsenc_buf s ≠ 0) (hb : block_at h (wcsenc_buf s) = some b)
    (hsize : b.length = (s.charlen + 1) * sizeof_wchar_t) (hfit : b.length < SIZE_MOD)
    (hst : s.state = 0)
    (cs rest : List Nat) (hcs : ∀ c ∈ cs, 0 < c ∧ c < 128) (hlen : cs.length ≤ s.charlen)
    (a : Alloc) :
    ∃ h1, wcsenc_encode_wcs enc h s (cs ++ 0 :: rest) cs.length a = some (h1, s, cs.length) ∧
      (block_at h1 (wcsenc_buf s)).map (List.take cs.length) = some cs := by
  obtain ⟨st, buf, bufsiz, charlen⟩ := s
  simp only [wcsenc_buf] at hp hb hsize hlen hst ⊢
  subst hst
  have hng : ¬ cs.length > charlen := Nat.not_lt.mpr hlen
  have hmod : cs.length * sizeof_wchar_t % SIZE_MOD = cs.length * sizeof_wchar_t := by
    apply Nat.mod_eq_of_lt
    simp only [sizeof_wchar_t] at hsize ⊢
    omega
  have hscan : ∀ n, wcsnlen_readable (cs ++ 0 :: rest) n = true :=
    fun n => wcsnlen_readable_of_mem _ n (by simp)
  rcases Nat.eq_zero_or_pos cs.length with h0 | hpos
  · have hnil : cs = [] := List.length_eq_zero.mp h0
    subst hnil
    have hscan0 := hscan 0
    simp only [List.nil_append] at hscan0
    refine ⟨heap_store h buf b, ?_, ?_⟩
    · simp [wcsenc_encode_wcs, encode_grow, wcsrtombs, wcsrtombs_loop, hp, hb, hscan0]
    · simp [block_at_heap_store_self]
  · have hrem : cs.length < cs.length * sizeof_wchar_t := by
      simp only [sizeof_wchar_t]; omega
    have hloop := wcsrtombs_loop_ascii enc hascii rest cs (cs.length * sizeof_wchar_t) []
      hcs hrem
    have hroom : (cs ++ [0]).length ≤ b.length := by
      simp only [sizeof_wchar_t] at hsize
      simp only [List.length_append, List.length_singleton]
      omega
    refine ⟨heap_store h buf (cs ++ [0] ++ b.drop (cs ++ [0]).length), ?_, ?_⟩
    · simp only [wcsenc_encode_wcs, encode_grow, hng, if_false, wcsrtombs, hp, hb, hmod, hloop,
        hscan, Bool.true_eq_false]
      have hroom2 : cs.length + 1 ≤ b.length := by simpa using hroom
      simp [hroom2]
    · simp [block_at_heap_store_self, List.take_append_of_le_length]

/-- C3 as amended, at concrete inputs: `wcsenc_new(4)` then an encode of three
ASCII characters, and `wcsenc_new(0)` then an encode of the empty string, both in
a UTF-8 locale. -/
theorem encode_ascii_exact_witness :
    (∃ h1, wcsenc_encode_wcs utf8_wcrtomb heap_four self_four ([65, 66, 67] ++ 0 :: [])
        [65, 66, 67].length ⟨0, []⟩ = some (h1, self_four, [65, 66, 67].length) ∧
      (block_at h1 (wcsenc_buf self_four)).map (List.take [65, 66, 67].length)
        = some [65, 66, 67]) ∧
    (∃ h1, wcsenc_encode_wcs utf8_wcrtomb heap_zero self_zero (([] : List Nat) ++ 0 :: [])
        ([] : List Nat).length ⟨0, []⟩ = some (h1, self_zero, ([] : List Nat).length) ∧
      (block_at h1 (wcsenc_buf self_zero)).map (List.take ([] : List Nat).length)
        = some []) :=
  ⟨encode_ascii_exact utf8_wcrtomb utf8_wcrtomb_ascii heap_four self_four (List.replicate 20 7)
      (by decide) (by decide) (by decide) (by decide) (by decide) [65, 66, 67] []
      (by decide) (by decide) ⟨0, []⟩,
    encode_ascii_exact utf8_wcrtomb utf8_wcrtomb_ascii heap_zero self_zero [7, 7, 7, 7]
      (by decide) (by decide) (by decide) (by decide) (by decide) [] []
      (by decide) (by decide) ⟨0, []⟩⟩

/-! ## Unrepresentable characters -/

/-- C6, as amended: on a buffer whose storage is an allocated block of
`(charlen + 1) * sizeof(wchar_t)` bytes, an encode of `count <= charlen` whose
NUL-terminated source holds, within its first `count` characters, an
unrepresentable character after only non-NUL representable characters of at most
`sizeof(wchar_t)` bytes each, returns `WCS_WRITE_ERROR`; `wcsenc_reset` is then
defined; and after it an encode of any NUL-terminated input of `count <= charlen`
that the converter accepts from the zero state returns the same value, and leaves
the same bytes below that value in the storage, as the same encode on a buffer
just returned by `wcsenc_new`. -/
theorem encode_invalid_then_reset (enc : Encoder)
    (h : Heap) (s : wcsenc_s) (b : List Nat)
    (hp : wcsenc_buf s ≠ 0) (hb : block_at h (wcsenc_buf s) = some b)
    (hsize : b.length = (s.charlen + 1) * sizeof_wchar_t) (hfit : b.length < SIZE_MOD)
    (pre : List Nat) (bad : Nat) (rest : List Nat) (len : Nat)
    (hpre : ∀ c ∈ pre, c ≠ 0 ∧
      ∀ st, ∃ bs st1, enc c st = some (bs, st1) ∧ bs.length ≤ sizeof_wchar_t)
    (hbad : bad ≠ 0 ∧ ∀ st, enc bad st = none) (hterm : 0 ∈ rest)
    (hin : pre.length < len) (hlen : len ≤ s.charlen) (a : Alloc)
    (str2 : List Nat) (len2 : Nat) (c2 : Conv) (hlen2 : len2 ≤ s.charlen)
    (hterm2 : 0 ∈ str2)
    (hvalid : wcsrtombs_loop enc str2 (len2 * sizeof_wchar_t % SIZE_MOD) 0 [] = some c2)
    (hok : c2.ret ≠ WCS_WRITE_ERROR)
    (h0 : Heap) (n : Nat) (a1 : Alloc) (hf : Heap) (sf : wcsenc_s)
    (hnew : wcsenc_new h0 n a1 true = (hf, some sf)) (hn : len2 ≤ n)
    (hnfit : (n + 1) * sizeof_wchar_t < SIZE_MOD) (a3 a4 : Alloc) :
    ∃ h1 s1 h2 s2 h3 s3 h4 s4,
      wcsenc_encode_wcs enc h s (pre ++ bad :: rest) len a = some (h1, s1, WCS_WRITE_ERROR) ∧
      wcsenc_reset h1 s1 = some (h2, s2) ∧
      wcsenc_encode_wcs enc h2 s2 str2 len2 a3 = some (h3, s3, c2.ret) ∧
      wcsenc_encode_wcs enc hf sf str2 len2 a4 = some (h4, s4, c2.ret) ∧
      (block_at h3 (wcsenc_buf s3)).map (List.take c2.ret) = some (c2.out.take c2.ret) ∧
      (block_at h4 (wcsenc_buf s4)).map (List.take c2.ret) = some (c2.out.take c2.ret) := by
  obtain ⟨st, buf, bufsiz, charlen⟩ := s
  simp only [wcsenc_buf] at hp hb hsize hlen hlen2 ⊢
  have hW : sizeof_wchar_t = 4 := rfl
  rw [hW] at hsize hnfit
  -- the failing encode
  have hmod1 : len * sizeof_wchar_t % SIZE_MOD = len * sizeof_wchar_t :=
    Nat.mod_eq_of_lt (by rw [hW]; omega)
  have hrem : sizeof_wchar_t * pre.length < len * sizeof_wchar_t % SIZE_MOD := by
    rw [hmod1, hW]; omega
  obtain ⟨out1, st1, hrun1, hout1⟩ :=
    wcsrtombs_loop_invalid enc bad rest hbad.1 hbad.2 pre _ st [] hpre hrem
  rw [hW] at hout1
  simp only [List.length_nil] at hout1
  have hroom1 : out1.length ≤ b.length := by omega
  have he1 := wcsenc_encode_wcs_stored enc h ⟨st, buf, bufsiz, charlen⟩ b (pre ++ bad :: rest)
    len a ⟨WCS_WRITE_ERROR, out1, st1⟩ hp hb hlen
    (wcsnlen_readable_of_mem _ _
      (List.mem_append_right pre (List.mem_cons_of_mem bad hterm))) hrun1 hroom1
  -- the reset
  have hb1 : block_at (heap_store h buf (out1 ++ b.drop out1.length)) buf
      = some (out1 ++ b.drop out1.length) := block_at_heap_store_self _ _ _
  have hb1len : (out1 ++ b.drop out1.length).length = b.length := by
    simp only [List.length_append, List.length_drop]; omega
  have hreset := wcsenc_reset_defined (heap_store h buf (out1 ++ b.drop out1.length))
    ⟨st1, buf, bufsiz, charlen⟩ (out1 ++ b.drop out1.length) hp hb1 (by rw [hb1len, hW]; omega)
  -- bounds on what the valid input stores
  have hmod2 : len2 * sizeof_wchar_t % SIZE_MOD = len2 * sizeof_wchar_t :=
    Nat.mod_eq_of_lt (by rw [hW]; omega)
  obtain ⟨hout2, hret2⟩ := wcsrtombs_loop_bounds enc str2 _ 0 [] c2 hvalid
  rw [hmod2, hW] at hout2
  simp only [List.length_nil] at hout2
  have hret : c2.ret ≤ c2.out.length := by
    rcases hret2 with he | ⟨hle, _⟩
    · exact absurd he hok
    · exact hle
  -- the encode after the reset
  have hb2 : block_at (heap_store (heap_store h buf (out1 ++ b.drop out1.length)) buf
      (List.replicate sizeof_wchar_t 0 ++ (out1 ++ b.drop out1.length).drop sizeof_wchar_t)) buf
      = some (List.replicate sizeof_wchar_t 0
          ++ (out1 ++ b.drop out1.length).drop sizeof_wchar_t) :=
    block_at_heap_store_self _ _ _
  have hb2len : (List.replicate sizeof_wchar_t 0
      ++ (out1 ++ b.drop out1.length).drop sizeof_wchar_t).length = b.length := by
    simp only [List.length_append, List.length_replicate, List.length_drop, hW]; omega
  have hscan2 := wcsnlen_readable_of_mem str2 (len2 * sizeof_wchar_t % SIZE_MOD) hterm2
  have he3 := wcsenc_encode_wcs_stored enc _ ⟨0, buf, bufsiz, charlen⟩ _ str2 len2 a3 c2 hp hb2
    hlen2 hscan2 hvalid (by rw [hb2len]; omega)
  -- the encode on the new buffer
  obtain ⟨ha1, hhf, hsf⟩ := wcsenc_new_success h0 n a1 true hf sf hnew
  subst hhf hsf
  rw [hW, Nat.mod_eq_of_lt hnfit] at *
  have hbf : block_at (heap_store h0 a1.addr (fresh_bytes ((n + 1) * 4) a1.fill)) a1.addr
      = some (fresh_bytes ((n + 1) * 4) a1.fill) := block_at_heap_store_self _ _ _
  have he4 := wcsenc_encode_wcs_stored enc _ ⟨0, a1.addr, (n + 1) * 4, n⟩ _ str2 len2 a4 c2
    ha1 hbf hn hscan2 hvalid (by rw [fresh_bytes_length]; omega)
  refine ⟨_, _, _, _, _, _, _, _, he1, hreset, he3, he4, ?_, ?_⟩
  · simp [wcsenc_buf, block_at_heap_store_self, List.take_append_of_le_length hret]
  · simp [wcsenc_buf, block_at_heap_store_self, List.take_append_of_le_length hret]

/-- C6 as amended, at a concrete input in a UTF-8 locale: on the buffer of
`wcsenc_new(4)` an encode of count 2 of `A` followed by the surrogate `0xD800`
fails; after the reset an encode of `é` returns 2 and stores `C3 A9`, as on a new
buffer. -/
theorem encode_invalid_then_reset_witness :
    ∃ h1 s1 h2 s2 h3 s3 h4 s4,
      wcsenc_encode_wcs utf8_wcrtomb heap_four self_four ([65] ++ 0xD800 :: [0]) 2 ⟨0, []⟩
        = some (h1, s1, WCS_WRITE_ERROR) ∧
      wcsenc_reset h1 s1 = some (h2, s2) ∧
      wcsenc_encode_wcs utf8_wcrtomb h2 s2 [0xE9, 0] 1 ⟨0, []⟩
        = some (h3, s3, (Conv.mk 2 [0xC3, 0xA9, 0] 0).ret) ∧
      wcsenc_encode_wcs utf8_wcrtomb heap_four self_four [0xE9, 0] 1 ⟨0, []⟩
        = some (h4, s4, (Conv.mk 2 [0xC3, 0xA9, 0] 0).ret) ∧
      (block_at h3 (wcsenc_buf s3)).map (List.take (Conv.mk 2 [0xC3, 0xA9, 0] 0).ret)
        = some ((Conv.mk 2 [0xC3, 0xA9, 0] 0).out.take (Conv.mk 2 [0xC3, 0xA9, 0] 0).ret) ∧
      (block_at h4 (wcsenc_buf s4)).map (List.take (Conv.mk 2 [0xC3, 0xA9, 0] 0).ret)
        = some ((Conv.mk 2 [0xC3, 0xA9, 0] 0).out.take (Conv.mk 2 [0xC3, 0xA9, 0] 0).ret) :=
  encode_invalid_then_reset utf8_wcrtomb heap_four self_four (List.replicate 20 7)
    (by decide) (by decide) (by decide) (by decide) [65] 0xD800 [0] 2
    (fun c hc => by
      have hc65 : c = 65 := by simpa using hc
      subst hc65
      exact ⟨by decide, fun st => ⟨[65], st, by simp [utf8_wcrtomb], by decide⟩⟩)
    ⟨by decide, fun st => by simp [utf8_wcrtomb]⟩ (by decide)
    (by decide) (by decide) ⟨0, []⟩ [0xE9, 0] 1 ⟨2, [0xC3, 0xA9, 0], 0⟩ (by decide) (by decide)
    (by decide) (by decide) [] 4 ⟨100, List.replicate 20 7⟩ heap_four self_four (by decide) (by decide)
    (by decide) ⟨0, []⟩ ⟨0, []⟩

/-! ## Where the returned value is bounded -/

/-- Whenever a defined `wcsenc_encode_wcs` leaves a non-null storage pointer, the
returned value is `WCS_WRITE_ERROR` or at most `count * sizeof(wchar_t)` in
`size_t` arithmetic, which is below `WCS_WRITE_ERROR`. -/
theorem wcsenc_encode_wcs_bounded (enc : Encoder) (h : Heap) (s : wcsenc_s) (str : List Nat)
    (len : Nat) (a : Alloc) (h1 : Heap) (s1 : wcsenc_s) (r : Nat)
    (he : wcsenc_encode_wcs enc h s str len a = some (h1, s1, r)) (hp : s1.buf ≠ 0) :
    r = WCS_WRITE_ERROR ∨
      (r ≤ len * sizeof_wchar_t % SIZE_MOD ∧
        len * sizeof_wchar_t % SIZE_MOD < WCS_WRITE_ERROR) := by
  have hlim : len * sizeof_wchar_t % SIZE_MOD < WCS_WRITE_ERROR := by
    simp only [sizeof_wchar_t, SIZE_MOD, WCS_WRITE_ERROR]
    omega
  unfold wcsenc_encode_wcs at he
  cases hg : encode_grow h s len a with
  | none => simp [hg] at he
  | some g =>
    rcases encode_grow_cases h s len a g hg with ⟨_, rfl⟩ | ⟨_, h2, rfl⟩ | ⟨hlt, h2, rfl⟩
    · simp only [hg] at he
      cases hw : wcsrtombs enc h s.buf str (len * sizeof_wchar_t % SIZE_MOD) s.state with
      | none => simp [hw] at he
      | some w =>
        obtain ⟨h3, retval, st⟩ := w
        simp [hw] at he
        obtain ⟨_, hs, hr⟩ := he
        subst hs hr
        have hp2 : s.buf ≠ 0 := hp
        unfold wcsrtombs at hw
        simp only [hp2, if_false] at hw
        by_cases hscan : wcsnlen_readable str (len * sizeof_wchar_t % SIZE_MOD) = false
        · simp [hscan] at hw
        simp only [hscan, if_false] at hw
        cases hb : block_at h s.buf with
        | none => simp [hb] at hw
        | some b =>
          simp only [hb] at hw
          cases hl : wcsrtombs_loop enc str (len * sizeof_wchar_t % SIZE_MOD) s.state [] with
          | none => simp [hl] at hw
          | some c =>
            simp only [hl] at hw
            by_cases hroom : c.out.length ≤ b.length
            · simp [hroom] at hw
              obtain ⟨_, hr, _⟩ := hw
              subst hr
              have hbd := (wcsrtombs_loop_bounds enc str _ s.state [] c hl).2
              rcases hbd with he | ⟨_, hle⟩
              · exact Or.inl he
              · exact Or.inr ⟨by simpa using hle, hlim⟩
            · simp [hroom] at hw
    · simp [hg] at he
      exact Or.inl he.2.2.symm
    · simp only [hg] at he
      cases hw : wcsrtombs enc h2 0 str (len * sizeof_wchar_t % SIZE_MOD) s.state with
      | none => simp [hw] at he
      | some w =>
        obtain ⟨h3, retval, st⟩ := w
        simp [hw] at he
        obtain ⟨_, hs, _⟩ := he
        subst hs
        exact absurd rfl hp

end Wcsenc
